import Mathlib

/-
Verification of the k-bucket implementation in
src/protocols/kad/src/kbucket/bucket.rs.

The Rust code is shallowly embedded as executable Lean functions:

* peer keys are modelled as natural numbers (an opaque, cloneable,
  equality-comparable identifier);
* the wall clock (Instant) is modelled as a natural number that the caller
  passes explicitly to every operation that reads Instant::now();
* every operation that can panic in Rust (ArrayVec::insert with an index
  beyond the length, ArrayVec::push on a full vector, indexing/removal out
  of bounds, and the unreachable! arms) returns an Option, where none
  models the panic.
-/

set_option maxRecDepth 8000

namespace Kad

/-- Maximum number of nodes in a bucket, i.e. the fixed k parameter
(MAX_NODES_PER_BUCKET in bucket.rs). -/
def MAX_NODES_PER_BUCKET : Nat := 20

/-- The status of a node in a bucket (NodeStatus in bucket.rs). -/
inductive NodeStatus where
  | Connected
  | Disconnected
deriving DecidableEq

/-- A node in a bucket: the key identifying the peer together with the
associated value (Node in bucket.rs). -/
structure Node where
  key : Nat
  value : Nat
deriving DecidableEq

instance : Inhabited Node := ⟨⟨0, 0⟩⟩

/-- A node that is pending insertion into a full bucket (PendingNode in
bucket.rs); replace is the instant at which it becomes eligible. -/
structure PendingNode where
  node : Node
  status : NodeStatus
  replace : Nat
deriving DecidableEq

/-- A k-bucket (KBucket in bucket.rs): the ordered node list, the index of
the first connected node, the optional pending node and the pending
timeout. -/
structure KBucket where
  nodes : List Node
  first_connected_pos : Option Nat
  pending : Option PendingNode
  pending_timeout : Nat
deriving DecidableEq

/-- The result of inserting an entry into a bucket (InsertResult in
bucket.rs); the Pending variant carries the key of the least-recently
connected, currently disconnected entry. -/
inductive InsertResult where
  | Inserted
  | Pending (disconnected : Nat)
  | Full
deriving DecidableEq

/-- The result of applying a pending node to a bucket (AppliedPending in
bucket.rs). -/
structure AppliedPending where
  inserted : Nat
  evicted : Option Node
deriving DecidableEq

/-- Insertion into a list at a given index, as ArrayVec::insert performs it
for an index that is at most the length; the out-of-bounds and capacity
panics of ArrayVec::insert are handled by avInsert below. -/
def insertAt : Nat → Node → List Node → List Node
  | 0, a, l => a :: l
  | _ + 1, a, [] => [a]
  | i + 1, a, x :: xs => x :: insertAt i a xs

/-- ArrayVec::insert on a vector with capacity MAX_NODES_PER_BUCKET:
returns none (a panic) when the index exceeds the length or the vector is
already at capacity. -/
def avInsert (i : Nat) (a : Node) (l : List Node) : Option (List Node) :=
  if i ≤ l.length ∧ l.length < MAX_NODES_PER_BUCKET then some (insertAt i a l)
  else none

/-- Iterator::position over the node list: index of the first node with the
given key (KBucket::position in bucket.rs). -/
def findPos (key : Nat) : List Node → Option Nat
  | [] => none
  | n :: rest => if n.key = key then some 0 else (findPos key rest).map (· + 1)

/-- KBucket::new in bucket.rs: an empty bucket with the given timeout. -/
def KBucket.new (pending_timeout : Nat) : KBucket :=
  ⟨[], none, none, pending_timeout⟩

/-- KBucket::status in bucket.rs: the derived status of the position, i.e.
Connected exactly when first_connected_pos is set and at most pos. -/
def KBucket.status (b : KBucket) (pos : Nat) : NodeStatus :=
  match b.first_connected_pos with
  | some i => if i ≤ pos then NodeStatus.Connected else NodeStatus.Disconnected
  | none => NodeStatus.Disconnected

/-- KBucket::num_entries in bucket.rs. -/
def KBucket.num_entries (b : KBucket) : Nat :=
  b.nodes.length

/-- KBucket::num_connected in bucket.rs. -/
def KBucket.num_connected (b : KBucket) : Nat :=
  match b.first_connected_pos with
  | some i => b.nodes.length - i
  | none => 0

/-- KBucket::num_disconnected in bucket.rs. -/
def KBucket.num_disconnected (b : KBucket) : Nat :=
  b.nodes.length - b.num_connected

/-- KBucket::position in bucket.rs. -/
def KBucket.position (b : KBucket) (key : Nat) : Option Nat :=
  findPos key b.nodes

/-- KBucket::insert in bucket.rs.  The clock reading now stands for the
Instant::now() call used to schedule a pending node.  The returned Option
is some (new bucket state, insert result); none models a panic of the
underlying ArrayVec (never hit from well-formed states). -/
def KBucket.insert (b : KBucket) (node : Node) (status : NodeStatus) (now : Nat) :
    Option (KBucket × InsertResult) :=
  match status with
  | NodeStatus.Connected =>
    if b.nodes.length = MAX_NODES_PER_BUCKET then
      if b.first_connected_pos = some 0 ∨ b.pending.isSome then
        some (b, InsertResult.Full)
      else
        match b.nodes with
        | [] => none
        | n0 :: _ =>
          some ({ b with
                    pending := some ⟨node, NodeStatus.Connected, now + b.pending_timeout⟩ },
                InsertResult.Pending n0.key)
    else
      if b.nodes.length < MAX_NODES_PER_BUCKET then
        some ({ b with
                  nodes := b.nodes ++ [node],
                  first_connected_pos :=
                    match b.first_connected_pos with
                    | some p => some p
                    | none => some b.nodes.length },
              InsertResult.Inserted)
      else none
  | NodeStatus.Disconnected =>
    if b.nodes.length = MAX_NODES_PER_BUCKET then
      some (b, InsertResult.Full)
    else
      match b.first_connected_pos with
      | some p =>
        match avInsert p node b.nodes with
        | some l =>
          some ({ b with nodes := l, first_connected_pos := some (p + 1) },
                InsertResult.Inserted)
        | none => none
      | none =>
        if b.nodes.length < MAX_NODES_PER_BUCKET then
          some ({ b with nodes := b.nodes ++ [node] }, InsertResult.Inserted)
        else none

/-- KBucket::update in bucket.rs: remove the node with the given key (if
present), discard the pending node when the removed node was at position 0
and the new status is Connected, and re-insert with the new status.  The
result none models a panic: either inside the re-insertion or at the
unreachable! arm for a re-insertion that does not yield Inserted. -/
def KBucket.update (b : KBucket) (key : Nat) (status : NodeStatus) (now : Nat) :
    Option KBucket :=
  match b.position key with
  | none => some b
  | some pos =>
    match b.nodes[pos]? with
    | none => none
    | some node =>
      match KBucket.insert
          { b with
              nodes := b.nodes.eraseIdx pos,
              pending :=
                if pos = 0 ∧ status = NodeStatus.Connected then none else b.pending }
          node status now with
      | some (b1, InsertResult.Inserted) => some b1
      | _ => none

/-- KBucket::update_pending in bucket.rs. -/
def KBucket.update_pending (b : KBucket) (status : NodeStatus) : KBucket :=
  match b.pending with
  | none => b
  | some q => { b with pending := some { q with status := status } }

/-- KBucket::apply_pending in bucket.rs.  The clock reading now stands for
Instant::now(); the outer Option models panics (never hit from well-formed
states), the inner Option is the AppliedPending result. -/
def KBucket.apply_pending (b : KBucket) (now : Nat) :
    Option (KBucket × Option AppliedPending) :=
  match b.pending with
  | none => some (b, none)
  | some q =>
    if q.replace ≤ now then
      if b.nodes.length = MAX_NODES_PER_BUCKET then
        if KBucket.status b 0 = NodeStatus.Connected then
          some ({ b with pending := none }, none)
        else
          if q.status = NodeStatus.Connected then
            match b.nodes with
            | [] => none
            | n0 :: rest =>
              if rest.length < MAX_NODES_PER_BUCKET then
                some ({ b with
                          nodes := rest ++ [q.node],
                          first_connected_pos :=
                            match b.first_connected_pos with
                            | none => some rest.length
                            | some p => if p = 0 then none else some (p - 1),
                          pending := none },
                      some ⟨q.node.key, some n0⟩)
              else none
          else
            match b.first_connected_pos with
            | some p =>
              if p = 0 then
                some ({ b with pending := none }, none)
              else
                match b.nodes with
                | [] => none
                | n0 :: rest =>
                  match avInsert (p - 1) q.node rest with
                  | some l =>
                    some ({ b with nodes := l, pending := none },
                          some ⟨q.node.key, some n0⟩)
                  | none => none
            | none =>
              match b.nodes with
              | [] => none
              | n0 :: rest =>
                if rest.length < MAX_NODES_PER_BUCKET then
                  some ({ b with nodes := rest ++ [q.node], pending := none },
                        some ⟨q.node.key, some n0⟩)
                else none
      else
        match KBucket.insert { b with pending := none } q.node q.status now with
        | some (b1, InsertResult.Inserted) => some (b1, some ⟨q.node.key, none⟩)
        | _ => none
    else
      some (b, none)

/-- A key is fresh for a bucket when no resident node and no pending node
carries it; this is the uniqueness discipline the owning table guarantees
before calling insert. -/
def freshFor (b : KBucket) (n : Node) : Bool :=
  b.nodes.all (fun m => m.key != n.key) && b.pending.all (fun p => p.node.key != n.key)

/-- Run a list of insert calls (key paired with intended status) at a fixed
clock reading, requiring every inserted key to be fresh; none models either
a panic or a freshness violation. -/
def runFresh (now : Nat) : KBucket → List (Node × NodeStatus) → Option KBucket
  | b, [] => some b
  | b, (n, s) :: rest =>
    if freshFor b n then
      match b.insert n s now with
      | some (b1, _) => runFresh now b1 rest
      | none => none
    else none

/-- Run a list of insert calls at a fixed clock reading, with no freshness
check; none models a panic. -/
def runInserts (now : Nat) : KBucket → List (Node × NodeStatus) → Option KBucket
  | b, [] => some b
  | b, (n, s) :: rest =>
    match b.insert n s now with
    | some (b1, _) => runInserts now b1 rest
    | none => none

/-- The sub-sequence of nodes of a given status in an insertion sequence,
in order. -/
def ofStatus (s : NodeStatus) : List (Node × NodeStatus) → List Node
  | [] => []
  | (n, s') :: rest => if s' = s then n :: ofStatus s rest else ofStatus s rest

/-- The bucket states reachable from an empty bucket by insert (with fresh
keys), update, update_pending and apply_pending calls that do not panic. -/
inductive Reachable : KBucket → Prop where
  | new (t : Nat) : Reachable (KBucket.new t)
  | insert {b b' : KBucket} {node : Node} {status : NodeStatus} {now : Nat}
      {r : InsertResult} :
      Reachable b →
      (∀ m ∈ b.nodes, m.key ≠ node.key) →
      (∀ p, b.pending = some p → p.node.key ≠ node.key) →
      b.insert node status now = some (b', r) →
      Reachable b'
  | update {b b' : KBucket} {key : Nat} {status : NodeStatus} {now : Nat} :
      Reachable b →
      b.update key status now = some b' →
      Reachable b'
  | update_pending {b : KBucket} {status : NodeStatus} :
      Reachable b →
      Reachable (b.update_pending status)
  | apply_pending {b b' : KBucket} {now : Nat} {r : Option AppliedPending} :
      Reachable b →
      b.apply_pending now = some (b', r) →
      Reachable b'

lemma freshFor_nodes {b : KBucket} {n : Node} (h : freshFor b n = true) :
    ∀ m ∈ b.nodes, m.key ≠ n.key := by
  intro m hm
  have h1 := (Bool.and_eq_true _ _).mp h |>.1
  have := List.all_eq_true.mp h1 m hm
  simpa using this

lemma freshFor_pending {b : KBucket} {n : Node} (h : freshFor b n = true) :
    ∀ p, b.pending = some p → p.node.key ≠ n.key := by
  intro p hp
  have h2 := (Bool.and_eq_true _ _).mp h |>.2
  rw [hp] at h2
  simpa [Option.all] using h2

/-- A successful freshness-checked insertion run only visits reachable
states. -/
lemma reachable_of_runFresh :
    ∀ (l : List (Node × NodeStatus)) (b b' : KBucket) (now : Nat),
      Reachable b → runFresh now b l = some b' → Reachable b'
  | [], b, b', _, hb, h => by
    simp only [runFresh, Option.some.injEq] at h
    exact h ▸ hb
  | (n, s) :: rest, b, b', now, hb, h => by
    simp only [runFresh] at h
    split at h
    · split at h
      · next b1 r heq =>
        exact reachable_of_runFresh rest b1 b' now
          (Reachable.insert hb (freshFor_nodes (by assumption))
            (freshFor_pending (by assumption)) heq) h
      · exact absurd h (by simp)
    · exact absurd h (by simp)

/-- The two-node state reached by inserting key 1 Disconnected, key 2
Connected and then updating key 1 to Disconnected: the boundary index has
run off the end of the node list. -/
def c1bucket : KBucket := ⟨[⟨2, 0⟩, ⟨1, 0⟩], some 2, none, 5⟩

lemma reachable_c1bucket : Reachable c1bucket := by
  have h2 : Reachable (⟨[⟨1, 0⟩, ⟨2, 0⟩], some 1, none, 5⟩ : KBucket) :=
    reachable_of_runFresh
      [(⟨1, 0⟩, NodeStatus.Disconnected), (⟨2, 0⟩, NodeStatus.Connected)]
      (KBucket.new 5) _ 0 (Reachable.new 5) (by decide)
  exact Reachable.update h2
    (show KBucket.update _ 1 NodeStatus.Disconnected 0 = some c1bucket by decide)

/-- C1: the partition invariant fails on the code.  From the empty bucket,
insert key 1 Disconnected, insert key 2 Connected, then update key 1 to
Disconnected (all keys distinct): the reachable result has
first_connected_pos = some 2 with only two nodes, so every member derives
status Disconnected while the split index is not None — update removes a
node without adjusting first_connected_pos, breaking the invariant stated
in the spec and in the field documentation of bucket.rs. -/
theorem C1_partition_code_bug :
    Reachable c1bucket ∧
    c1bucket.first_connected_pos ≠ none ∧
    (∀ i, i < c1bucket.nodes.length →
      c1bucket.status i = NodeStatus.Disconnected) :=
  ⟨reachable_c1bucket, by decide, by decide⟩

/-- C6: the guarantee that update's re-insertion always returns Inserted
fails on the code.  Extending the C1 trace with update of key 2 to
Disconnected: key 2 is present at position 0, but after its removal the
stale first_connected_pos = some 2 exceeds the remaining length 1, and the
re-insertion calls ArrayVec::insert with index 2 on a one-element vector,
which panics (modelled by the none result) instead of returning
Inserted. -/
theorem C6_reinsert_code_bug :
    Reachable c1bucket ∧
    c1bucket.position 2 = some 0 ∧
    c1bucket.update 2 NodeStatus.Disconnected 0 = none :=
  ⟨reachable_c1bucket, by decide, by decide⟩

/-- A full bucket holding a pending candidate: 19 disconnected keys 0..18,
the connected key 100, and key 101 parked as the pending Connected
candidate (ready at instant 5). -/
def c5full : KBucket :=
  ⟨(List.range 19).map (fun i => ⟨i, 0⟩) ++ [⟨100, 0⟩], some 19,
   some ⟨⟨101, 0⟩, NodeStatus.Connected, 5⟩, 5⟩

/-- The bucket c5full after updating key 0 to Disconnected: the pending
candidate is retained, but first_connected_pos has been pushed to 20, past
the end of the 20-element node list. -/
def c5pending : KBucket :=
  ⟨(List.range 18).map (fun i => ⟨i + 1, 0⟩) ++ [⟨100, 0⟩, ⟨0, 0⟩], some 20,
   some ⟨⟨101, 0⟩, NodeStatus.Connected, 5⟩, 5⟩

/-- The bucket c5pending after promoting its position-0 member (key 1) to
Connected. -/
def c5promoted : KBucket :=
  ⟨(List.range 17).map (fun i => ⟨i + 2, 0⟩) ++ [⟨100, 0⟩, ⟨0, 0⟩, ⟨1, 0⟩], some 20,
   none, 5⟩

lemma reachable_c5pending : Reachable c5pending := by
  have hA : Reachable c5full :=
    reachable_of_runFresh
      ((List.range 19).map (fun i => (⟨i, 0⟩, NodeStatus.Disconnected)) ++
        [(⟨100, 0⟩, NodeStatus.Connected), (⟨101, 0⟩, NodeStatus.Connected)])
      (KBucket.new 5) _ 0 (Reachable.new 5) (by decide)
  exact Reachable.update hA
    (show KBucket.update _ 0 NodeStatus.Disconnected 0 = some c5pending by decide)

/-- C5: pending cancellation on promotion fails on the code as stated.  The
reachable bucket c5pending holds a pending candidate and its position-0
member has key 1.  Updating key 1 to Connected does discard the pending
candidate, a subsequent apply_pending returns no result, and the promoted
member ends up at the last position — but its derived status is
Disconnected, not Connected, because the stale first_connected_pos = some
20 left behind by an earlier update lies beyond the last index 19. -/
theorem C5_promotion_code_bug :
    Reachable c5pending ∧
    c5pending.pending = some ⟨⟨101, 0⟩, NodeStatus.Connected, 5⟩ ∧
    c5pending.position 1 = some 0 ∧
    c5pending.update 1 NodeStatus.Connected 0 = some c5promoted ∧
    c5promoted.pending = none ∧
    c5promoted.apply_pending 7 = some (c5promoted, none) ∧
    c5promoted.nodes.getLast? = some ⟨1, 0⟩ ∧
    c5promoted.status (c5promoted.nodes.length - 1) = NodeStatus.Disconnected :=
  ⟨reachable_c5pending, by decide, by decide, by decide, by decide, by decide,
   by decide, by decide⟩

/-- C3: inserting a Connected node into a full bucket whose position-0
member is Disconnected (first_connected_pos is not some 0) and that has no
pending candidate parks the node as the pending candidate with status
Connected and ready time now + pending_timeout, returns Pending with the
key of the member at position 0, and leaves the node list and the split
index unchanged. -/
theorem C3_pending_admission (b : KBucket) (node n0 : Node) (rest : List Node)
    (now : Nat)
    (hn : b.nodes = n0 :: rest)
    (hfull : b.nodes.length = MAX_NODES_PER_BUCKET)
    (hfcp : b.first_connected_pos ≠ some 0)
    (hpend : b.pending = none) :
    b.insert node NodeStatus.Connected now =
      some ({ b with
                pending := some ⟨node, NodeStatus.Connected, now + b.pending_timeout⟩ },
            InsertResult.Pending n0.key) := by
  simp only [KBucket.insert]
  rw [if_pos hfull, if_neg (by simp [hfcp, hpend]), hn]

/-- C4: a full bucket rejects a Connected insertion with Full when all its
members are connected (first_connected_pos = some 0) or a pending candidate
exists, and rejects every Disconnected insertion with Full regardless of
the split index and pending state; the bucket is unchanged. -/
theorem C4_full_rejection (b : KBucket) (node : Node) (now : Nat)
    (hfull : b.nodes.length = MAX_NODES_PER_BUCKET) :
    ((b.first_connected_pos = some 0 ∨ b.pending.isSome) →
      b.insert node NodeStatus.Connected now = some (b, InsertResult.Full)) ∧
    b.insert node NodeStatus.Disconnected now = some (b, InsertResult.Full) := by
  constructor
  · intro h
    simp only [KBucket.insert]
    rw [if_pos hfull, if_pos h]
  · simp only [KBucket.insert]
    rw [if_pos hfull]

/-- C8: apply_pending is a no-op, returning no result and leaving the
bucket (nodes, split index and pending candidate) unchanged, when there is
no pending candidate or when the pending candidate's ready time has not yet
elapsed at the current clock reading. -/
theorem C8_apply_pending_noop (b : KBucket) (now : Nat) :
    (b.pending = none → b.apply_pending now = some (b, none)) ∧
    (∀ q : PendingNode, b.pending = some q → now < q.replace →
      b.apply_pending now = some (b, none)) := by
  constructor
  · intro h
    simp only [KBucket.apply_pending, h]
  · intro q hq hlt
    simp only [KBucket.apply_pending, hq]
    rw [if_neg (by omega)]

lemma findPos_eq_none {key : Nat} :
    ∀ {l : List Node}, (∀ n ∈ l, n.key ≠ key) → findPos key l = none
  | [], _ => rfl
  | n :: rest, h => by
    simp only [findPos]
    rw [if_neg (h n (by simp)), findPos_eq_none (fun m hm => h m (by simp [hm]))]
    rfl

/-- C10: updating a key that is absent from the node list leaves the bucket
completely unchanged — nodes, split index and pending candidate (even when
the key coincides with the pending candidate's key). -/
theorem C10_update_absent (b : KBucket) (key : Nat) (status : NodeStatus)
    (now : Nat)
    (h : ∀ n ∈ b.nodes, n.key ≠ key) :
    b.update key status now = some b := by
  simp only [KBucket.update, KBucket.position, findPos_eq_none h]

/-- A full bucket of 20 disconnected nodes with keys 0..19. -/
def w20disc : KBucket :=
  ⟨(List.range 20).map (fun i => ⟨i, 0⟩), none, none, 7⟩

/-- A full bucket of 20 connected nodes with keys 0..19. -/
def w20conn : KBucket :=
  ⟨(List.range 20).map (fun i => ⟨i, 0⟩), some 0, none, 7⟩

/-- A small bucket holding a pending candidate with key 9, ready at 5. -/
def wpend : KBucket :=
  ⟨[⟨1, 0⟩], none, some ⟨⟨9, 0⟩, NodeStatus.Connected, 5⟩, 5⟩

theorem C3_pending_admission_witness :
    w20disc.insert ⟨99, 0⟩ NodeStatus.Connected 3 =
      some ({ w20disc with
                pending := some ⟨⟨99, 0⟩, NodeStatus.Connected, 3 + w20disc.pending_timeout⟩ },
            InsertResult.Pending (⟨0, 0⟩ : Node).key) :=
  C3_pending_admission w20disc ⟨99, 0⟩ ⟨0, 0⟩
    ((List.range 19).map (fun i => ⟨i + 1, 0⟩)) 3
    (by decide) (by decide) (by decide) (by decide)

theorem C4_full_rejection_witness :
    ((w20conn.first_connected_pos = some 0 ∨ w20conn.pending.isSome) →
      w20conn.insert ⟨99, 0⟩ NodeStatus.Connected 3 = some (w20conn, InsertResult.Full)) ∧
    w20conn.insert ⟨99, 0⟩ NodeStatus.Disconnected 3 = some (w20conn, InsertResult.Full) :=
  C4_full_rejection w20conn ⟨99, 0⟩ 3 (by decide)

theorem C8_apply_pending_noop_witness :
    (KBucket.new 4).apply_pending 0 = some (KBucket.new 4, none) ∧
    wpend.apply_pending 2 = some (wpend, none) :=
  ⟨(C8_apply_pending_noop (KBucket.new 4) 0).1 rfl,
   (C8_apply_pending_noop wpend 2).2 ⟨⟨9, 0⟩, NodeStatus.Connected, 5⟩ rfl (by decide)⟩

theorem C10_update_absent_witness :
    wpend.update 9 NodeStatus.Connected 0 = some wpend :=
  C10_update_absent wpend 9 NodeStatus.Connected 0 (by decide)

lemma insertAt_length :
    ∀ (i : Nat) (a : Node) (l : List Node), i ≤ l.length →
      (insertAt i a l).length = l.length + 1
  | 0, _, l, _ => by simp [insertAt]
  | _ + 1, _, [], h => by simp at h
  | i + 1, a, x :: xs, h => by
    simp only [insertAt, List.length_cons]
    rw [insertAt_length i a xs (by simpa using h)]

lemma avInsert_length {i : Nat} {a : Node} {l l' : List Node}
    (h : avInsert i a l = some l') :
    l'.length = l.length + 1 ∧ l.length < MAX_NODES_PER_BUCKET := by
  unfold avInsert at h
  split at h
  · next hc =>
    simp only [Option.some.injEq] at h
    subst h
    exact ⟨insertAt_length i a l hc.1, hc.2⟩
  · exact absurd h (by simp)

/-- No successful insert call yields a bucket with more than
MAX_NODES_PER_BUCKET nodes. -/
lemma insert_len_le {b b' : KBucket} {node : Node} {status : NodeStatus} {now : Nat}
    {r : InsertResult} (h : b.insert node status now = some (b', r)) :
    b'.nodes.length ≤ MAX_NODES_PER_BUCKET := by
  cases status with
  | Connected =>
    simp only [KBucket.insert] at h
    split at h
    · next hfull =>
      split at h
      · simp only [Option.some.injEq, Prod.mk.injEq] at h
        obtain ⟨rfl, -⟩ := h
        exact le_of_eq hfull
      · split at h
        · exact absurd h (by simp)
        · simp only [Option.some.injEq, Prod.mk.injEq] at h
          obtain ⟨rfl, -⟩ := h
          exact le_of_eq hfull
    · split at h
      · next hlt =>
        simp only [Option.some.injEq, Prod.mk.injEq] at h
        obtain ⟨rfl, -⟩ := h
        simpa using hlt
      · exact absurd h (by simp)
  | Disconnected =>
    simp only [KBucket.insert] at h
    split at h
    · next hfull =>
      simp only [Option.some.injEq, Prod.mk.injEq] at h
      obtain ⟨rfl, -⟩ := h
      exact le_of_eq hfull
    · split at h
      · split at h
        · next l heq =>
          simp only [Option.some.injEq, Prod.mk.injEq] at h
          obtain ⟨rfl, -⟩ := h
          have := avInsert_length heq
          simp only []
          omega
        · exact absurd h (by simp)
      · split at h
        · next hlt =>
          simp only [Option.some.injEq, Prod.mk.injEq] at h
          obtain ⟨rfl, -⟩ := h
          simpa using hlt
        · exact absurd h (by simp)

/-- A successful update call either yields a bucket within capacity or
leaves the bucket unchanged. -/
lemma update_len {b b' : KBucket} {key : Nat} {status : NodeStatus} {now : Nat}
    (h : b.update key status now = some b') :
    b'.nodes.length ≤ MAX_NODES_PER_BUCKET ∨ b' = b := by
  simp only [KBucket.update] at h
  split at h
  · right
    simp only [Option.some.injEq] at h
    exact h.symm
  · split at h
    · exact absurd h (by simp)
    · split at h
      · next b1 heq =>
        left
        simp only [Option.some.injEq] at h
        subst h
        exact insert_len_le heq
      · exact absurd h (by simp)

/-- A successful apply_pending call either yields a bucket within capacity
or leaves the bucket unchanged. -/
lemma apply_len {b b' : KBucket} {now : Nat} {r : Option AppliedPending}
    (h : b.apply_pending now = some (b', r)) :
    b'.nodes.length ≤ MAX_NODES_PER_BUCKET ∨ b' = b := by
  simp only [KBucket.apply_pending] at h
  split at h
  · right
    simp only [Option.some.injEq, Prod.mk.injEq] at h
    exact h.1.symm
  · split at h
    · split at h
      · next hfull =>
        split at h
        · left
          simp only [Option.some.injEq, Prod.mk.injEq] at h
          obtain ⟨hb, -⟩ := h
          subst hb
          exact le_of_eq hfull
        · split at h
          · split at h
            · exact absurd h (by simp)
            · next n0 rest hn =>
              split at h
              · next hlt =>
                simp only [Option.some.injEq, Prod.mk.injEq] at h
                obtain ⟨hb, -⟩ := h
                subst hb
                left
                simpa using hlt
              · exact absurd h (by simp)
          · split at h
            · split at h
              · left
                simp only [Option.some.injEq, Prod.mk.injEq] at h
                obtain ⟨hb, -⟩ := h
                subst hb
                exact le_of_eq hfull
              · split at h
                · exact absurd h (by simp)
                · next n0 rest hn =>
                  split at h
                  · next l heq =>
                    left
                    simp only [Option.some.injEq, Prod.mk.injEq] at h
                    obtain ⟨hb, -⟩ := h
                    subst hb
                    have h2 := avInsert_length heq
                    simp only []
                    omega
                  · exact absurd h (by simp)
            · split at h
              · exact absurd h (by simp)
              · next n0 rest hn =>
                split at h
                · next hlt =>
                  simp only [Option.some.injEq, Prod.mk.injEq] at h
                  obtain ⟨hb, -⟩ := h
                  subst hb
                  left
                  simpa using hlt
                · exact absurd h (by simp)
      · split at h
        · next b1 heq =>
          left
          simp only [Option.some.injEq, Prod.mk.injEq] at h
          obtain ⟨hb, -⟩ := h
          subst hb
          exact insert_len_le heq
        · exact absurd h (by simp)
    · right
      simp only [Option.some.injEq, Prod.mk.injEq] at h
      exact h.1.symm

lemma update_pending_nodes (b : KBucket) (s : NodeStatus) :
    (b.update_pending s).nodes = b.nodes := by
  unfold KBucket.update_pending
  split <;> rfl

/-- C2: capacity invariant — every reachable bucket has at most
MAX_NODES_PER_BUCKET (= 20) entries, and no successful insert call ever
produces a bucket with more than that many resident members. -/
theorem C2_capacity_invariant (b : KBucket) (h : Reachable b) :
    b.num_entries ≤ MAX_NODES_PER_BUCKET ∧
    (∀ (node : Node) (status : NodeStatus) (now : Nat) (b' : KBucket)
        (r : InsertResult),
      b.insert node status now = some (b', r) →
      b'.num_entries ≤ MAX_NODES_PER_BUCKET) := by
  refine ⟨?_, fun node status now b' r hi => insert_len_le hi⟩
  induction h with
  | new t => simp [KBucket.new, KBucket.num_entries, MAX_NODES_PER_BUCKET]
  | insert hb hf hp heq ih => exact insert_len_le heq
  | update hb heq ih =>
    rcases update_len heq with h1 | h1
    · exact h1
    · rw [KBucket.num_entries, h1]
      exact ih
  | update_pending hb ih =>
    rw [KBucket.num_entries, update_pending_nodes]
    exact ih
  | apply_pending hb heq ih =>
    rcases apply_len heq with h1 | h1
    · exact h1
    · rw [KBucket.num_entries, h1]
      exact ih

theorem C2_capacity_invariant_witness :
    (KBucket.new 3).num_entries ≤ MAX_NODES_PER_BUCKET :=
  (C2_capacity_invariant (KBucket.new 3) (Reachable.new 3)).1

/-- C7: apply_pending on a full bucket with an elapsed candidate.  When the
member at position 0 derives Connected, the candidate is dropped and no
result is returned with the node list unchanged; when position 0 derives
Disconnected and the candidate's status is Connected, the position-0 member
is evicted, the split index is decremented by one if set and otherwise set
to the new last index, the candidate is appended at the end, and the result
carries the admitted key together with the evicted member. -/
theorem C7_apply_pending_full (b : KBucket) (q : PendingNode) (n0 : Node)
    (rest : List Node) (now : Nat)
    (hq : b.pending = some q)
    (helapsed : q.replace ≤ now)
    (hn : b.nodes = n0 :: rest)
    (hfull : b.nodes.length = MAX_NODES_PER_BUCKET) :
    (b.status 0 = NodeStatus.Connected →
      b.apply_pending now = some ({ b with pending := none }, none)) ∧
    (b.status 0 = NodeStatus.Disconnected → q.status = NodeStatus.Connected →
      b.apply_pending now =
        some ({ b with
                  nodes := rest ++ [q.node],
                  first_connected_pos :=
                    match b.first_connected_pos with
                    | some p => some (p - 1)
                    | none => some ((rest ++ [q.node]).length - 1),
                  pending := none },
              some ⟨q.node.key, some n0⟩)) := by
  have hrest : rest.length < MAX_NODES_PER_BUCKET := by
    rw [hn] at hfull
    simp only [List.length_cons] at hfull
    omega
  constructor
  · intro hst
    simp only [KBucket.apply_pending, hq]
    rw [if_pos helapsed, if_pos hfull, if_pos hst]
  · intro hst hqs
    simp only [KBucket.apply_pending, hq]
    rw [if_pos helapsed, if_pos hfull, if_neg (by simp [hst]), if_pos hqs, hn]
    dsimp only
    rw [if_pos hrest]
    cases hfcp : b.first_connected_pos with
    | none => simp
    | some p =>
      have hp : p ≠ 0 := by
        intro hep
        rw [KBucket.status, hfcp, hep] at hst
        simp at hst
      simp [hp]

theorem C7_apply_pending_full_witness :
    c5full.apply_pending 6 =
      some (⟨(List.range 18).map (fun i => ⟨i + 1, 0⟩) ++ [⟨100, 0⟩, ⟨101, 0⟩],
             some 18, none, 5⟩,
            some ⟨101, some ⟨0, 0⟩⟩) :=
  (C7_apply_pending_full c5full ⟨⟨101, 0⟩, NodeStatus.Connected, 5⟩ ⟨0, 0⟩
      ((List.range 18).map (fun i => ⟨i + 1, 0⟩) ++ [⟨100, 0⟩]) 6
      (by decide) (by decide) (by decide) (by decide)).2 (by decide) (by decide)

lemma insertAt_append (ds cs : List Node) (a : Node) :
    insertAt ds.length a (ds ++ cs) = ds ++ a :: cs := by
  induction ds with
  | nil => rfl
  | cons x xs ih => simp [insertAt, ih]

/-- Invariant of an insertion run: if the node list is a disconnected block
followed by a connected block with the split index at the boundary, every
further insert within capacity extends the matching block at its end. -/
lemma runInserts_spec :
    ∀ (l : List (Node × NodeStatus)) (b : KBucket) (ds cs : List Node) (now : Nat),
      b.nodes = ds ++ cs →
      b.first_connected_pos = (if cs = [] then none else some ds.length) →
      b.nodes.length + l.length ≤ MAX_NODES_PER_BUCKET →
      ∃ b' : KBucket,
        runInserts now b l = some b' ∧
        b'.nodes = (ds ++ ofStatus NodeStatus.Disconnected l) ++
                   (cs ++ ofStatus NodeStatus.Connected l) ∧
        b'.first_connected_pos =
          (if cs ++ ofStatus NodeStatus.Connected l = [] then none
           else some (ds ++ ofStatus NodeStatus.Disconnected l).length)
  | [], b, ds, cs, now, hnodes, hfcp, _ =>
    ⟨b, rfl, by simp [ofStatus, hnodes], by simp [ofStatus, hfcp]⟩
  | (n, s) :: rest, b, ds, cs, now, hnodes, hfcp, hlen => by
    have hlt : b.nodes.length < MAX_NODES_PER_BUCKET := by
      simp only [List.length_cons] at hlen
      omega
    have hne : b.nodes.length ≠ MAX_NODES_PER_BUCKET := Nat.ne_of_lt hlt
    cases s with
    | Connected =>
      have hstep : b.insert n NodeStatus.Connected now =
          some ({ b with
                    nodes := b.nodes ++ [n],
                    first_connected_pos :=
                      match b.first_connected_pos with
                      | some p => some p
                      | none => some b.nodes.length },
                InsertResult.Inserted) := by
        simp only [KBucket.insert]
        rw [if_neg hne, if_pos hlt]
      obtain ⟨b', h1, h2, h3⟩ :=
        runInserts_spec rest
          { b with
              nodes := b.nodes ++ [n],
              first_connected_pos :=
                match b.first_connected_pos with
                | some p => some p
                | none => some b.nodes.length }
          ds (cs ++ [n]) now
          (by simp [hnodes])
          (by
            rw [hfcp]
            cases cs with
            | nil => simp [hnodes]
            | cons c cst => simp)
          (by
            simp only [List.length_append, List.length_cons, List.length_nil] at hlen ⊢
            omega)
      refine ⟨b', ?_, ?_, ?_⟩
      · simp only [runInserts, hstep]
        exact h1
      · rw [h2]
        simp [ofStatus]
      · rw [h3]
        simp [ofStatus]
    | Disconnected =>
      cases cs with
      | nil =>
        have hfcpn : b.first_connected_pos = none := by simpa using hfcp
        have hstep : b.insert n NodeStatus.Disconnected now =
            some ({ b with nodes := b.nodes ++ [n] }, InsertResult.Inserted) := by
          simp only [KBucket.insert, hfcpn]
          rw [if_neg hne, if_pos hlt]
        obtain ⟨b', h1, h2, h3⟩ :=
          runInserts_spec rest { b with nodes := b.nodes ++ [n] }
            (ds ++ [n]) [] now
            (by simp [hnodes])
            (by simpa using hfcpn)
            (by
              simp only [List.length_append, List.length_cons, List.length_nil] at hlen ⊢
              omega)
        refine ⟨b', ?_, ?_, ?_⟩
        · simp only [runInserts, hstep]
          exact h1
        · rw [h2]
          simp [ofStatus]
        · rw [h3]
          simp [ofStatus]
      | cons c cst =>
        have hfcps : b.first_connected_pos = some ds.length := by simpa using hfcp
        have hav : avInsert ds.length n b.nodes = some (ds ++ n :: (c :: cst)) := by
          unfold avInsert
          rw [if_pos ⟨by rw [hnodes]; simp only [List.length_append]; omega, hlt⟩]
          rw [hnodes, insertAt_append]
        have hstep : b.insert n NodeStatus.Disconnected now =
            some ({ b with
                      nodes := ds ++ n :: (c :: cst),
                      first_connected_pos := some (ds.length + 1) },
                  InsertResult.Inserted) := by
          simp only [KBucket.insert, hfcps, hav]
          rw [if_neg hne]
        obtain ⟨b', h1, h2, h3⟩ :=
          runInserts_spec rest
            { b with
                nodes := ds ++ n :: (c :: cst),
                first_connected_pos := some (ds.length + 1) }
            (ds ++ [n]) (c :: cst) now
            (by simp)
            (by simp)
            (by
              simp only [hnodes, List.length_append, List.length_cons] at hlen ⊢
              omega)
        refine ⟨b', ?_, ?_, ?_⟩
        · simp only [runInserts, hstep]
          exact h1
        · rw [h2]
          simp [ofStatus]
        · rw [h3]
          simp [ofStatus]

/-- C9: ordering invariant — starting from the empty bucket, any sequence
of at most MAX_NODES_PER_BUCKET insert calls with distinct keys and
arbitrary statuses succeeds and yields a node list that is the
concatenation of the Disconnected sub-sequence followed by the Connected
sub-sequence, each in insertion order (with at most K inserts the bucket
never overflows, so no eviction arises). -/
theorem C9_ordering_invariant (l : List (Node × NodeStatus)) (t now : Nat)
    (_hkeys : (l.map (fun x => x.1.key)).Nodup)
    (hlen : l.length ≤ MAX_NODES_PER_BUCKET) :
    ∃ b' : KBucket,
      runInserts now (KBucket.new t) l = some b' ∧
      b'.nodes = ofStatus NodeStatus.Disconnected l ++ ofStatus NodeStatus.Connected l := by
  obtain ⟨b', h1, h2, -⟩ :=
    runInserts_spec l (KBucket.new t) [] [] now rfl (by simp [KBucket.new])
      (by simpa [KBucket.new] using hlen)
  exact ⟨b', h1, by simpa using h2⟩

theorem C9_ordering_invariant_witness :
    ∃ b' : KBucket,
      runInserts 0 (KBucket.new 5)
          [(⟨5, 0⟩, NodeStatus.Connected), (⟨6, 0⟩, NodeStatus.Disconnected),
           (⟨7, 0⟩, NodeStatus.Connected)] = some b' ∧
      b'.nodes =
        ofStatus NodeStatus.Disconnected
            [(⟨5, 0⟩, NodeStatus.Connected), (⟨6, 0⟩, NodeStatus.Disconnected),
             (⟨7, 0⟩, NodeStatus.Connected)] ++
          ofStatus NodeStatus.Connected
            [(⟨5, 0⟩, NodeStatus.Connected), (⟨6, 0⟩, NodeStatus.Disconnected),
             (⟨7, 0⟩, NodeStatus.Connected)] :=
  C9_ordering_invariant
    [(⟨5, 0⟩, NodeStatus.Connected), (⟨6, 0⟩, NodeStatus.Disconnected),
     (⟨7, 0⟩, NodeStatus.Connected)] 5 0 (by decide) (by decide)

end Kad
